import Mathlib

/-!
Shallow embedding of the SOAP spatial index (`shared_mesh.py`) and dataset
resolution layer (`snapshot_datasets.py`).

Modelling conventions:
* Positions are 3-vectors of exact rationals (`Vec3 := Fin 3 → ℚ`); the
  source's float64 arithmetic is modelled by exact arithmetic, and the
  `astype(np.int32)` casts are modelled as exact integers (no wraparound).
* The MPI-distributed computation is modelled by its global result: the
  MIN/MAX `Allreduce` over per-rank minima/maxima equals the min/max over the
  concatenated global position list, the SUM `Reduce` of per-rank `bincount`s
  equals the `bincount` of the concatenated cell-index list, and the shared
  arrays after `sync()` hold exactly those global values.  `build` therefore
  takes the globally concatenated position list.
* `np.amin`/`np.amax` over an empty axis raise `ValueError`; `build` returns
  `none` on an empty particle list to model that failure.
* Python division `0/0` on a degenerate (zero cell size) axis yields NaN in
  numpy, which the int cast and `np.clip(.., 0, resolution-1)` send into cell
  coordinate 0; rational division by zero in Lean yields 0, which the same
  clip also sends to 0, so the embedded cell coordinate agrees with the code
  on degenerate axes.
* Python `dict`s are modelled as insertion-ordered association lists with
  last-write-wins update (`dictSet`) and first-match lookup (`dictLookup`),
  which together implement exactly the `dict` semantics.
-/

attribute [local semireducible] Rat.mul Rat.add Rat.sub Rat.inv

/-- A 3-component position vector, component `d : Fin 3` of exact rationals. -/
abbrev Vec3 := Fin 3 → ℚ

/-- Componentwise minimum; the element-wise `MPI.MIN` reduction combined with
`np.amin(..., axis=0)` (shared_mesh.py lines 24-27). -/
def vmin (a b : Vec3) : Vec3 := fun d => min (a d) (b d)

/-- Componentwise maximum; the element-wise `MPI.MAX` reduction combined with
`np.amax(..., axis=0)` (shared_mesh.py lines 25-29). -/
def vmax (a b : Vec3) : Vec3 := fun d => max (a d) (b d)

/-- Global componentwise minimum of a nonempty particle list, written with the
head as fold seed. -/
def globalMin (p : Vec3) (ps : List Vec3) : Vec3 := ps.foldl vmin p

/-- Global componentwise maximum of a nonempty particle list. -/
def globalMax (p : Vec3) (ps : List Vec3) : Vec3 := ps.foldl vmax p

/-- The numpy `np.clip(x, lo, hi)` on integers: `min (max x lo) hi`
(shared_mesh.py lines 38, 95, 97, 134, 136). -/
def clip (x lo hi : ℤ) : ℤ := min (max x lo) hi

/-- One axis of the cell coordinate computation
`np.clip(np.floor((q - pos_min)/cell_size).astype(np.int32), 0, resolution-1)`
(shared_mesh.py lines 37-38 for particles; the same expression is used for the
query corners at lines 94-97 and 133-136). -/
def cellCoordClip (pos_min cell_size : Vec3) (resolution : ℕ) (q : Vec3) (d : Fin 3) : ℤ :=
  clip (Int.floor ((q d - pos_min d) / cell_size d)) 0 ((resolution : ℤ) - 1)

/-- Linearized cell index of a position:
`cell_idx[:,0] + resolution*cell_idx[:,1] + resolution**2*cell_idx[:,2]`
(shared_mesh.py line 39).  The three clipped coordinates lie in
`[0, resolution-1]`, so the sum is nonnegative and `toNat` is exact. -/
def cellIndexOf (pos_min cell_size : Vec3) (resolution : ℕ) (q : Vec3) : ℕ :=
  (cellCoordClip pos_min cell_size resolution q 0
    + (resolution : ℤ) * cellCoordClip pos_min cell_size resolution q 1
    + (resolution : ℤ) ^ 2 * cellCoordClip pos_min cell_size resolution q 2).toNat

/-- The global per-cell histogram `np.bincount(cell_idx, minlength=nr_cells)`
(shared_mesh.py line 42, summed over ranks at line 51).  All keys produced by
`cellIndexOf` are `< nr_cells` when `resolution >= 1`, so the numpy result has
exactly `minlength` entries. -/
def bincount (keys : List ℕ) (minlength : ℕ) : List ℕ :=
  (List.range minlength).map (fun c => keys.countP (fun k => decide (k = c)))

/-- The exclusive prefix sum `cell_offset[0] = 0`,
`cell_offset[1:] = np.cumsum(cell_count[:-1])` (shared_mesh.py lines 59-62):
entry `c` is the sum of the first `c` counts. -/
def cellOffsetOf (counts : List ℕ) : List ℕ :=
  (List.range counts.length).map (fun c => (counts.take c).sum)

/-- Modelled from the spec: `virgo.mpi.parallel_sort(cell_idx, comm=comm,
return_index=True)` (shared_mesh.py line 67) is an external distributed sort
primitive, not part of this repository.  Per the spec it yields a global
permutation of `[0, N)` that groups particle indices by their cell key, with
unspecified tie-break among equal keys; we instantiate the tie-break as
ascending original index.  All claims about the sort index treat each cell's
slice as a set, so they are insensitive to this choice. -/
def sortIndexOf (keys : List ℕ) (nr_cells : ℕ) : List ℕ :=
  (List.range nr_cells).flatMap
    (fun c => (List.range keys.length).filter (fun i => decide (keys.getD i 0 = c)))

/-- The published shared state of `SharedMesh.__init__` (shared_mesh.py lines
10-74): grid geometry plus the three bucket-index arrays. -/
structure SharedMesh where
  resolution : ℕ
  pos_min : Vec3
  pos_max : Vec3
  cell_size : Vec3
  cell_count : List ℕ
  cell_offset : List ℕ
  sort_idx : List ℕ

/-- Construction (`SharedMesh.__init__`, shared_mesh.py lines 10-74) over the
globally concatenated particle list.  An empty particle list makes
`np.amin(pos.local.value, axis=0)` raise `ValueError` (zero-size reduction has
no identity), modelled as `none`. -/
def build (pos : List Vec3) (resolution : ℕ) : Option SharedMesh :=
  match pos with
  | [] => none
  | p :: ps =>
    let pos_min := globalMin p ps
    let pos_max := globalMax p ps
    let nr_cells := resolution ^ 3
    let cell_size : Vec3 := fun d => (pos_max d - pos_min d) / (resolution : ℚ)
    let cell_idx := pos.map (cellIndexOf pos_min cell_size resolution)
    let cell_count := bincount cell_idx nr_cells
    some
      { resolution := resolution
        pos_min := pos_min
        pos_max := pos_max
        cell_size := cell_size
        cell_count := cell_count
        cell_offset := cellOffsetOf cell_count
        sort_idx := sortIndexOf cell_idx nr_cells }

/-- The slice `sort_idx.full[start:start+count]` for one cell, with
`start = cell_offset.full[cell_nr]`, `count = cell_count.full[cell_nr]`
(shared_mesh.py lines 105-108 and 144-147). -/
def cellSlice (m : SharedMesh) (cell_nr : ℕ) : List ℕ :=
  (m.sort_idx.drop (m.cell_offset.getD cell_nr 0)).take (m.cell_count.getD cell_nr 0)

/-- Python `range(a, b+1)`: the integers from `a` to `b` inclusive, empty when
`b < a` (shared_mesh.py lines 101-103 and 140-142). -/
def intRange (a b : ℤ) : List ℤ :=
  (List.range (b + 1 - a).toNat).map (fun n : ℕ => a + (n : ℤ))

/-- Box query `SharedMesh.query` (shared_mesh.py lines 81-114): enumerate the
full 3-D range of cells between the clipped cell coordinates of the two box
corners, and concatenate the sort-index slice of every nonempty cell. -/
def SharedMesh.query (m : SharedMesh) (q_min q_max : Vec3) : List ℕ :=
  let cell_min_idx := cellCoordClip m.pos_min m.cell_size m.resolution q_min
  let cell_max_idx := cellCoordClip m.pos_min m.cell_size m.resolution q_max
  (intRange (cell_min_idx 2) (cell_max_idx 2)).flatMap fun k =>
    (intRange (cell_min_idx 1) (cell_max_idx 1)).flatMap fun j =>
      (intRange (cell_min_idx 0) (cell_max_idx 0)).flatMap fun i =>
        let cell_nr := (i + (m.resolution : ℤ) * j + (m.resolution : ℤ) ^ 2 * k).toNat
        if 0 < m.cell_count.getD cell_nr 0 then cellSlice m cell_nr else []

/-- Squared Euclidean distance `np.sum((pos - centre)**2, axis=1)` of one
position from the centre (shared_mesh.py line 148). -/
def squared_distance (a b : Vec3) : ℚ :=
  (a 0 - b 0) ^ 2 + (a 1 - b 1) ^ 2 + (a 2 - b 2) ^ 2

/-- Sphere query `SharedMesh.query_radius` (shared_mesh.py lines 116-157):
same cell enumeration as `query (centre - radius) (centre + radius)`, but each
cell's candidates are filtered by the exact squared-distance test
`r2 <= radius*radius`.  The `np.sum(keep) > 0` guard only skips appending
empty arrays, which the filter already produces. -/
def SharedMesh.query_radius (m : SharedMesh) (centre : Vec3) (radius : ℚ)
    (pos : List Vec3) : List ℕ :=
  let q_min : Vec3 := fun d => centre d - radius
  let q_max : Vec3 := fun d => centre d + radius
  let cell_min_idx := cellCoordClip m.pos_min m.cell_size m.resolution q_min
  let cell_max_idx := cellCoordClip m.pos_min m.cell_size m.resolution q_max
  (intRange (cell_min_idx 2) (cell_max_idx 2)).flatMap fun k =>
    (intRange (cell_min_idx 1) (cell_max_idx 1)).flatMap fun j =>
      (intRange (cell_min_idx 0) (cell_max_idx 0)).flatMap fun i =>
        let cell_nr := (i + (m.resolution : ℤ) * j + (m.resolution : ℤ) ^ 2 * k).toNat
        if 0 < m.cell_count.getD cell_nr 0 then
          (cellSlice m cell_nr).filter
            (fun x => decide (squared_distance (pos.getD x default) centre ≤ radius * radius))
        else []

/-- Association-list lookup with first-match semantics; together with
`dictSet` this models a Python `dict`. -/
def dictLookup {β : Type _} : List (String × β) → String → Option β
  | [], _ => none
  | (k', v) :: rest, k => if k' = k then some v else dictLookup rest k

/-- Python `dict` assignment `m[k] = v`: overwrite the existing binding in
place, else append a new one (insertion order preserved). -/
def dictSet {β : Type _} : List (String × β) → String → β → List (String × β)
  | [], k, v => [(k, v)]
  | (k', v') :: rest, k, v =>
    if k' = k then (k', v) :: rest else (k', v') :: dictSet rest k v

/-- Python `d[k]` on a dict: the value, or a `KeyError` carrying the missing
key, modelled as `Except.error k`. -/
def dictIndex {β : Type _} (m : List (String × β)) (k : String) : Except String β :=
  match dictLookup m k with
  | none => Except.error k
  | some v => Except.ok v

/-- Python `s.split(sep)` for a single-character separator, on char lists. -/
def splitCharList (sep : Char) : List Char → List (List Char)
  | [] => [[]]
  | c :: rest =>
    let r := splitCharList sep rest
    if c = sep then [] :: r
    else
      match r with
      | [] => [[c]]
      | h :: t => (c :: h) :: t

/-- Python `s.split("/")` (snapshot_datasets.py lines 27-28). -/
def pySplit (s : String) (sep : Char) : List String :=
  (splitCharList sep s.data).map String.mk

/-- The state of a `SnapshotDatasets` instance (snapshot_datasets.py lines
3-31): the datasets found per particle-type group, the named-column tables,
and the dataset map built by `setup_aliases`. -/
structure SnapshotDatasets where
  datasets_in_file : List (String × List String)
  named_columns : List (String × List (String × ℕ))
  dataset_map : List (String × (String × String))

/-- The base dataset map of `setup_aliases` (snapshot_datasets.py lines
21-25): for every particle type and every dataset in it plus the two
`GroupNr` names, bind `"ptype/dset"` to `(ptype, dset)`. -/
def baseDatasetMap (datasets_in_file : List (String × List String)) :
    List (String × (String × String)) :=
  datasets_in_file.foldl
    (fun m e =>
      (e.2 ++ ["GroupNr_all", "GroupNr_bound"]).foldl
        (fun m' dset => dictSet m' (e.1 ++ "/" ++ dset) (e.1, dset)) m)
    []

/-- One iteration of the alias loop (snapshot_datasets.py lines 26-31): split
both the alias key and its target on `"/"` (a Python unpacking error for a
part count other than two is modelled as `none`), overwrite the dataset map at
the alias key, and copy the target's named-column table to the alias dataset
name when only the former exists. -/
def applyAlias (st : SnapshotDatasets) (al : String × String) : Option SnapshotDatasets :=
  match pySplit al.1 '/', pySplit al.2 '/' with
  | [_SOAP_ptype, SOAP_dset], [snap_ptype, snap_dset] =>
    some
      { st with
        dataset_map := dictSet st.dataset_map al.1 (snap_ptype, snap_dset)
        named_columns :=
          match dictLookup st.named_columns snap_dset, dictLookup st.named_columns SOAP_dset with
          | some cols, none => dictSet st.named_columns SOAP_dset cols
          | _, _ => st.named_columns }
  | _, _ => none

/-- `SnapshotDatasets.setup_aliases` (snapshot_datasets.py lines 20-31):
rebuild `dataset_map` from the file contents, then apply the aliases in
order. -/
def SnapshotDatasets.setup_aliases (sd : SnapshotDatasets)
    (aliases : List (String × String)) : Option SnapshotDatasets :=
  (aliases.foldlM applyAlias
    { sd with dataset_map := baseDatasetMap sd.datasets_in_file } : Option SnapshotDatasets)

/-- `SnapshotDatasets.get_dataset` (snapshot_datasets.py lines 33-42): look
the name up in `dataset_map`; on a miss the handler prints the available keys
(I/O only) and re-raises the original `KeyError`, modelled as
`Except.error name`; on a hit return `data_dict[ptype][dset]` (whose own
`KeyError`s propagate unhandled).  The method never mutates the instance,
which the embedding reflects by returning no new state. -/
def SnapshotDatasets.get_dataset {α : Type _} (sd : SnapshotDatasets) (name : String)
    (data_dict : List (String × List (String × α))) : Except String α :=
  match dictLookup sd.dataset_map name with
  | none => Except.error name
  | some (ptype, dset) => (dictIndex data_dict ptype).bind fun d => dictIndex d dset

/-- A placeholder mesh used only as the default of `Option.getD` when naming
the result of a `build` call that is known to succeed. -/
def meshDefault : SharedMesh :=
  { resolution := 0
    pos_min := fun _ => 0
    pos_max := fun _ => 0
    cell_size := fun _ => 0
    cell_count := []
    cell_offset := []
    sort_idx := [] }

/-- Scenario particle set of the spec (section 8, scenarios A-C): three
particles at (0.1,0.1,0.1), (1.9,1.9,1.9), (1.1,0.1,0.1). -/
def scenarioPos : List Vec3 :=
  [![1/10, 1/10, 1/10], ![19/10, 19/10, 19/10], ![11/10, 1/10, 1/10]]

/-- The mesh built from `scenarioPos` at resolution 2. -/
def scenarioMesh : SharedMesh := (build scenarioPos 2).getD meshDefault

/-- Particle set whose axis-0 extent is degenerate (both particles at x = 5)
while axis 1 has positive extent. -/
def degeneratePos : List Vec3 := [![5, 0, 0], ![5, 1, 0]]

/-- The mesh built from `degeneratePos` at resolution 2. -/
def degenerateMesh : SharedMesh := (build degeneratePos 2).getD meshDefault

/-- Particle set with positive extent on every axis, containing a particle
exactly at the global maximum corner (2,2,2). -/
def cornerPos : List Vec3 := [![0, 0, 0], ![2, 2, 2]]

/-- The mesh built from `cornerPos` at resolution 2. -/
def cornerMesh : SharedMesh := (build cornerPos 2).getD meshDefault

/-- Snapshot state used to exercise the dataset-map claims: one particle type
with one dataset, no named columns, no map yet. -/
def snapFile : SnapshotDatasets :=
  { datasets_in_file := [("PartType0", ["Masses"])]
    named_columns := []
    dataset_map := [] }

/-- The snapshot state after `setup_aliases` with an empty alias table. -/
def snapAliased : SnapshotDatasets := (snapFile.setup_aliases []).getD snapFile

/-- Snapshot state with an empty dataset list, used for the alias-override
counterexample. -/
def snapFileX : SnapshotDatasets :=
  { datasets_in_file := [("PartType0", [])]
    named_columns := []
    dataset_map := [] }

/-- An alias table whose single alias key collides with a snapshot-derived
`GroupNr_all` key and redirects it elsewhere. -/
def aliasX : List (String × String) := [("PartType0/GroupNr_all", "PartType1/Foo")]

/-- The flat sequence of dict writes performed by the two nested loops of
`setup_aliases` that build the base dataset map (snapshot_datasets.py lines
22-25), in execution order. -/
def baseWrites (datasets_in_file : List (String × List String)) :
    List (String × (String × String)) :=
  datasets_in_file.flatMap
    (fun e => (e.2 ++ ["GroupNr_all", "GroupNr_bound"]).map
      (fun dset => (e.1 ++ "/" ++ dset, (e.1, dset))))

/-! Basic helper lemmas about the list and integer operations used above. -/

theorem mem_intRange {x a b : ℤ} : x ∈ intRange a b ↔ a ≤ x ∧ x ≤ b := by
  have hdef : intRange a b
      = (List.range (b + 1 - a).toNat).map (fun n : ℕ => a + (n : ℤ)) := rfl
  rw [hdef, List.mem_map]
  constructor
  · rintro ⟨n, hn, heq⟩
    have hn' := List.mem_range.mp hn
    have heq' : a + (n : ℤ) = x := heq
    omega
  · intro h
    refine ⟨(x - a).toNat, List.mem_range.mpr (by omega), ?_⟩
    show a + ((x - a).toNat : ℤ) = x
    omega

theorem clip_nonneg_le {x hi : ℤ} (h : 0 ≤ hi) : 0 ≤ clip x 0 hi ∧ clip x 0 hi ≤ hi := by
  unfold clip
  omega

theorem clip_mono {x y lo hi : ℤ} (h : x ≤ y) : clip x lo hi ≤ clip y lo hi := by
  unfold clip
  omega

theorem getD_map_range {β : Type _} (f : ℕ → β) {K c : ℕ} (hc : c < K) (d : β) :
    ((List.range K).map f).getD c d = f c := by
  have hlen : c < ((List.range K).map f).length := by simpa using hc
  rw [List.getD_eq_getElem _ d hlen, List.getElem_map, List.getElem_range]

theorem getD_map_getD {β γ : Type _} [Inhabited γ] (f : γ → β) (l : List γ) {x : ℕ}
    (hx : x < l.length) (d : β) : (l.map f).getD x d = f (l.getD x default) := by
  have hlen : x < (l.map f).length := by simpa using hx
  rw [List.getD_eq_getElem _ d hlen, List.getElem_map, List.getD_eq_getElem _ _ hx]

theorem two_digit_inj {R x y u v : ℤ} (hx0 : 0 ≤ x) (hx1 : x < R) (hu0 : 0 ≤ u)
    (hu1 : u < R) (h : x + R * y = u + R * v) : x = u ∧ y = v := by
  have hR : R ≠ 0 := by omega
  have hx : (x + y * R) % R = x := by
    rw [Int.add_mul_emod_self]
    exact Int.emod_eq_of_lt hx0 hx1
  have hu : (u + v * R) % R = u := by
    rw [Int.add_mul_emod_self]
    exact Int.emod_eq_of_lt hu0 hu1
  have hxy : x + y * R = u + v * R := by linarith
  have hxu : x = u := by rw [← hx, ← hu, hxy]
  refine ⟨hxu, ?_⟩
  have : R * y = R * v := by linarith
  exact mul_left_cancel₀ hR this

theorem three_digit_inj {R a b c a' b' c' : ℤ} (hR : 1 ≤ R)
    (ha : 0 ≤ a ∧ a ≤ R - 1) (hb : 0 ≤ b ∧ b ≤ R - 1) (hc : 0 ≤ c ∧ c ≤ R - 1)
    (ha' : 0 ≤ a' ∧ a' ≤ R - 1) (hb' : 0 ≤ b' ∧ b' ≤ R - 1) (hc' : 0 ≤ c' ∧ c' ≤ R - 1)
    (h : a + R * b + R ^ 2 * c = a' + R * b' + R ^ 2 * c') :
    a = a' ∧ b = b' ∧ c = c' := by
  have h1 : a + R * (b + R * c) = a' + R * (b' + R * c') := by ring_nf; ring_nf at h; linarith
  obtain ⟨haa, hrest⟩ :=
    two_digit_inj ha.1 (by omega) ha'.1 (by omega) h1
  obtain ⟨hbb, hcc⟩ :=
    two_digit_inj hb.1 (by omega) hb'.1 (by omega) hrest
  exact ⟨haa, hbb, hcc⟩

theorem lin_nonneg {R : ℕ} {a b c : ℤ} (ha : 0 ≤ a) (hb : 0 ≤ b) (hc : 0 ≤ c) :
    0 ≤ a + (R : ℤ) * b + (R : ℤ) ^ 2 * c := by
  have h1 : 0 ≤ (R : ℤ) * b := mul_nonneg (by positivity) hb
  have h2 : 0 ≤ (R : ℤ) ^ 2 * c := mul_nonneg (by positivity) hc
  linarith

theorem lin_lt {R : ℕ} (hR : 1 ≤ R) {a b c : ℤ}
    (ha : 0 ≤ a ∧ a ≤ (R : ℤ) - 1) (hb : 0 ≤ b ∧ b ≤ (R : ℤ) - 1)
    (hc : 0 ≤ c ∧ c ≤ (R : ℤ) - 1) :
    (a + (R : ℤ) * b + (R : ℤ) ^ 2 * c).toNat < R ^ 3 := by
  have hR0 : (0 : ℤ) ≤ (R : ℤ) := by positivity
  have h1 : (R : ℤ) * b ≤ (R : ℤ) * ((R : ℤ) - 1) := mul_le_mul_of_nonneg_left hb.2 hR0
  have h2 : (R : ℤ) ^ 2 * c ≤ (R : ℤ) ^ 2 * ((R : ℤ) - 1) :=
    mul_le_mul_of_nonneg_left hc.2 (by positivity)
  have hsum : a + (R : ℤ) * b + (R : ℤ) ^ 2 * c < ((R ^ 3 : ℕ) : ℤ) := by
    push_cast
    nlinarith
  have hnn := @lin_nonneg R a b c ha.1 hb.1 hc.1
  omega

theorem countP_eq_filter_range_length (p : ℕ → Bool) :
    ∀ keys : List ℕ,
      keys.countP p = ((List.range keys.length).filter (fun i => p (keys.getD i 0))).length := by
  intro keys
  induction keys with
  | nil => simp
  | cons k ks ih =>
    rw [List.countP_cons, List.length_cons, List.range_succ_eq_map]
    rw [List.filter_cons]
    have hmapped :
        (List.filter (fun i => p ((k :: ks).getD i 0)) ((List.range ks.length).map Nat.succ))
          = ((List.range ks.length).filter (fun i => p (ks.getD i 0))).map Nat.succ := by
      rw [List.filter_map]
      rfl
    simp only [List.getD_cons_zero, hmapped]
    by_cases hp : p k
    · simp [hp, ih]
    · simp [hp, ih]

theorem drop_length_add {β : Type _} : ∀ (l₁ l₂ : List β) (n : ℕ),
    (l₁ ++ l₂).drop (l₁.length + n) = l₂.drop n := by
  intro l₁
  induction l₁ with
  | nil => simp
  | cons a t ih =>
    intro l₂ n
    have : t.length + 1 + n = (t.length + n) + 1 := by omega
    simp only [List.cons_append, List.length_cons, this, List.drop_succ_cons]
    exact ih l₂ n

theorem flatMap_drop_take {β : Type _} (g : ℕ → List β) :
    ∀ (X : List ℕ) (c : ℕ) (Y : List ℕ),
      ((((X ++ c :: Y).flatMap g).drop ((X.map (fun x => (g x).length)).sum)).take
        (g c).length) = g c := by
  intro X
  induction X with
  | nil =>
    intro c Y
    simp only [List.nil_append, List.flatMap_cons, List.map_nil, List.sum_nil, List.drop_zero]
    exact List.take_left _ _
  | cons x X' ih =>
    intro c Y
    simp only [List.cons_append, List.flatMap_cons, List.map_cons, List.sum_cons]
    rw [drop_length_add]
    exact ih c Y

theorem range_decompose {c K : ℕ} (h : c < K) :
    List.range K = List.range c ++ c :: List.range' (c + 1) (K - c - 1) := by
  have h1 : c :: List.range' (c + 1) (K - c - 1) 1 = List.range' c (K - c) 1 := by
    have h2 : K - c = (K - c - 1) + 1 := by omega
    rw [h2, List.range'_succ]
    have h3 : K - c - 1 + 1 - 1 = K - c - 1 := by omega
    rw [h3]
  rw [List.range_eq_range', List.range_eq_range', h1]
  have h2 := List.range'_append 0 c (K - c) 1
  simp only [Nat.one_mul, Nat.zero_add] at h2
  rw [h2]
  congr 1
  omega

theorem getD_mem {l : List ℕ} {i : ℕ} (h : i < l.length) : l.getD i 0 ∈ l := by
  rw [List.getD_eq_getElem l 0 h]
  exact List.getElem_mem h

theorem bincount_length (keys : List ℕ) (K : ℕ) : (bincount keys K).length = K := by
  simp [bincount]

theorem bincount_getD (keys : List ℕ) {K c : ℕ} (hc : c < K) :
    (bincount keys K).getD c 0 = keys.countP (fun k => decide (k = c)) :=
  getD_map_range _ hc 0

theorem cellOffsetOf_getD (counts : List ℕ) {c : ℕ} (hc : c < counts.length) :
    (cellOffsetOf counts).getD c 0 = (counts.take c).sum :=
  getD_map_range _ hc 0

theorem bincount_take (keys : List ℕ) {K c : ℕ} (hc : c ≤ K) :
    (bincount keys K).take c
      = (List.range c).map (fun c' => keys.countP (fun k => decide (k = c'))) := by
  unfold bincount
  rw [← List.map_take, List.take_range, min_eq_left hc]

theorem sortIndexOf_slice (keys : List ℕ) {K c : ℕ} (hc : c < K) :
    ((sortIndexOf keys K).drop ((cellOffsetOf (bincount keys K)).getD c 0)).take
        ((bincount keys K).getD c 0)
      = (List.range keys.length).filter (fun i => decide (keys.getD i 0 = c)) := by
  have hlen : c < (bincount keys K).length := by rw [bincount_length]; exact hc
  rw [cellOffsetOf_getD _ hlen, bincount_getD _ hc, bincount_take _ hc.le]
  rw [countP_eq_filter_range_length]
  have hmapeq :
      (List.range c).map (fun c' => keys.countP (fun k => decide (k = c')))
        = (List.range c).map
            (fun c' =>
              ((List.range keys.length).filter (fun i => decide (keys.getD i 0 = c'))).length) := by
    apply List.map_congr_left
    intro c' _
    exact countP_eq_filter_range_length _ keys
  rw [hmapeq]
  unfold sortIndexOf
  rw [range_decompose hc]
  exact flatMap_drop_take
    (fun c' => (List.range keys.length).filter (fun i => decide (keys.getD i 0 = c')))
    (List.range c) c (List.range' (c + 1) (K - c - 1))

theorem filter_or_perm (l : List ℕ) (p q : ℕ → Bool)
    (hdisj : ∀ x ∈ l, ¬(p x = true ∧ q x = true)) :
    List.Perm (l.filter (fun x => p x || q x)) (l.filter p ++ l.filter q) := by
  induction l with
  | nil => simp
  | cons a t ih =>
    have hd := hdisj a (List.mem_cons_self a t)
    have ih' := ih (fun x hx => hdisj x (List.mem_cons_of_mem a hx))
    by_cases hp : p a = true
    · have hq : q a = false := by
        rcases hqv : q a with _ | _
        · rfl
        · exact absurd ⟨hp, hqv⟩ hd
      simp only [List.filter_cons, hp, hq, Bool.true_or, if_true, if_false, Bool.false_eq_true,
        List.cons_append]
      exact ih'.cons a
    · have hp' : p a = false := by
        rcases hpv : p a with _ | _
        · rfl
        · exact absurd hpv hp
      by_cases hq : q a = true
      · simp only [List.filter_cons, hp', hq, Bool.false_or, if_true, if_false,
          Bool.false_eq_true]
        exact (ih'.cons a).trans List.perm_middle.symm
      · have hq' : q a = false := by
          rcases hqv : q a with _ | _
          · rfl
          · exact absurd hqv hq
        simp only [List.filter_cons, hp', hq', Bool.false_or, if_false, Bool.false_eq_true]
        exact ih'

theorem sortGroups_perm (keys : List ℕ) (K : ℕ) :
    List.Perm (sortIndexOf keys K)
      ((List.range keys.length).filter (fun i => decide (keys.getD i 0 < K))) := by
  induction K with
  | zero =>
    unfold sortIndexOf
    simp
  | succ K ih =>
    unfold sortIndexOf at ih ⊢
    rw [List.range_succ, List.flatMap_append]
    simp only [List.flatMap_cons, List.flatMap_nil, List.append_nil]
    have heq :
        (List.range keys.length).filter (fun i => decide (keys.getD i 0 < K + 1))
          = (List.range keys.length).filter
              (fun i => decide (keys.getD i 0 < K) || decide (keys.getD i 0 = K)) := by
      apply List.filter_congr
      intro i _
      rw [← Bool.decide_or]
      exact decide_eq_decide.mpr (by omega)
    rw [heq]
    have step2 := filter_or_perm (List.range keys.length)
      (fun i => decide (keys.getD i 0 < K)) (fun i => decide (keys.getD i 0 = K))
      (by
        intro x _
        rintro ⟨h1, h2⟩
        rw [decide_eq_true_eq] at h1 h2
        omega)
    exact (ih.append_right _).trans step2.symm

theorem sortIndexOf_perm_range {keys : List ℕ} {K : ℕ} (hk : ∀ k ∈ keys, k < K) :
    List.Perm (sortIndexOf keys K) (List.range keys.length) := by
  have h := sortGroups_perm keys K
  have hfix :
      (List.range keys.length).filter (fun i => decide (keys.getD i 0 < K))
        = List.range keys.length := by
    apply List.filter_eq_self.mpr
    intro i hi
    exact decide_eq_true (hk _ (getD_mem (List.mem_range.mp hi)))
  rwa [hfix] at h

theorem globalMin_le_init (d : Fin 3) :
    ∀ (ps : List Vec3) (a : Vec3), globalMin a ps d ≤ a d := by
  intro ps
  induction ps with
  | nil => intro a; exact le_refl _
  | cons r t ih =>
    intro a
    have h := ih (vmin a r)
    have h2 : vmin a r d ≤ a d := min_le_left _ _
    exact le_trans h h2

theorem globalMax_ge_init (d : Fin 3) :
    ∀ (ps : List Vec3) (a : Vec3), a d ≤ globalMax a ps d := by
  intro ps
  induction ps with
  | nil => intro a; exact le_refl _
  | cons r t ih =>
    intro a
    have h := ih (vmax a r)
    have h2 : a d ≤ vmax a r d := le_max_left _ _
    exact le_trans h2 h

theorem globalMin_le_mem (d : Fin 3) :
    ∀ (ps : List Vec3) (a q : Vec3), (q = a ∨ q ∈ ps) → globalMin a ps d ≤ q d := by
  intro ps
  induction ps with
  | nil =>
    rintro a q (rfl | hq)
    · exact le_refl _
    · exact absurd hq (List.not_mem_nil q)
  | cons r t ih =>
    rintro a q (rfl | hq)
    · have h := globalMin_le_init d t (vmin q r)
      have h2 : vmin q r d ≤ q d := min_le_left _ _
      exact le_trans h h2
    · rcases List.mem_cons.mp hq with rfl | hq'
      · have h := globalMin_le_init d t (vmin a q)
        have h2 : vmin a q d ≤ q d := min_le_right _ _
        exact le_trans h h2
      · exact ih (vmin a r) q (Or.inr hq')

theorem globalMax_ge_mem (d : Fin 3) :
    ∀ (ps : List Vec3) (a q : Vec3), (q = a ∨ q ∈ ps) → q d ≤ globalMax a ps d := by
  intro ps
  induction ps with
  | nil =>
    rintro a q (rfl | hq)
    · exact le_refl _
    · exact absurd hq (List.not_mem_nil q)
  | cons r t ih =>
    rintro a q (rfl | hq)
    · have h := globalMax_ge_init d t (vmax q r)
      have h2 : q d ≤ vmax q r d := le_max_left _ _
      exact le_trans h2 h
    · rcases List.mem_cons.mp hq with rfl | hq'
      · have h := globalMax_ge_init d t (vmax a q)
        have h2 : q d ≤ vmax a q d := le_max_right _ _
        exact le_trans h2 h
      · exact ih (vmax a r) q (Or.inr hq')

theorem build_fields {pos : List Vec3} {R : ℕ} {m : SharedMesh}
    (hb : build pos R = some m) :
    m.resolution = R ∧
    (∀ d, m.cell_size d = (m.pos_max d - m.pos_min d) / (R : ℚ)) ∧
    m.cell_count = bincount (pos.map (cellIndexOf m.pos_min m.cell_size R)) (R ^ 3) ∧
    m.cell_offset = cellOffsetOf m.cell_count ∧
    m.sort_idx = sortIndexOf (pos.map (cellIndexOf m.pos_min m.cell_size R)) (R ^ 3) ∧
    0 < pos.length ∧
    (∀ q : Vec3, q ∈ pos → ∀ d, m.pos_min d ≤ q d ∧ q d ≤ m.pos_max d) := by
  cases pos with
  | nil => simp [build] at hb
  | cons p ps =>
    simp only [build, Option.some.injEq] at hb
    subst hb
    refine ⟨rfl, fun d => rfl, rfl, rfl, rfl, by simp, ?_⟩
    intro q hq d
    exact ⟨globalMin_le_mem d ps p q (List.mem_cons.mp hq),
      globalMax_ge_mem d ps p q (List.mem_cons.mp hq)⟩

theorem cell_size_nonneg {pos : List Vec3} {R : ℕ} {m : SharedMesh}
    (hb : build pos R = some m) (d : Fin 3) : 0 ≤ m.cell_size d := by
  obtain ⟨_, hcs, _, _, _, hlen, hbound⟩ := build_fields hb
  obtain ⟨q, hq⟩ : ∃ q : Vec3, q ∈ pos := by
    cases pos with
    | nil => simp at hlen
    | cons p ps => exact ⟨p, List.mem_cons_self p ps⟩
  have h := hbound q hq d
  rw [hcs d]
  apply div_nonneg (by linarith) (by positivity)

theorem cellCoordClip_bounds {pos_min cell_size : Vec3} {R : ℕ} (hR : 1 ≤ R)
    (q : Vec3) (d : Fin 3) :
    0 ≤ cellCoordClip pos_min cell_size R q d ∧
      cellCoordClip pos_min cell_size R q d ≤ (R : ℤ) - 1 := by
  apply clip_nonneg_le
  have h : (1 : ℤ) ≤ (R : ℤ) := by exact_mod_cast hR
  omega

theorem cellCoordClip_mono {pos_min cell_size : Vec3} {R : ℕ} {a b : Vec3} (d : Fin 3)
    (hcs : 0 ≤ cell_size d) (hab : a d ≤ b d) :
    cellCoordClip pos_min cell_size R a d ≤ cellCoordClip pos_min cell_size R b d := by
  unfold cellCoordClip
  apply clip_mono
  apply Int.floor_mono
  rcases eq_or_lt_of_le hcs with h0 | hpos
  · rw [← h0, div_zero, div_zero]
  · have hnum : a d - pos_min d ≤ b d - pos_min d := by linarith
    gcongr

theorem cellIndexOf_lt {pos_min cell_size : Vec3} {R : ℕ} (hR : 1 ≤ R) (q : Vec3) :
    cellIndexOf pos_min cell_size R q < R ^ 3 := by
  unfold cellIndexOf
  exact lin_lt hR (cellCoordClip_bounds hR q 0) (cellCoordClip_bounds hR q 1)
    (cellCoordClip_bounds hR q 2)

theorem keys_lt {pos : List Vec3} {R : ℕ} {m : SharedMesh}
    (hb : build pos R = some m) (hR : 1 ≤ R) :
    ∀ k ∈ pos.map (cellIndexOf m.pos_min m.cell_size R), k < R ^ 3 := by
  intro k hk
  obtain ⟨q, _, rfl⟩ := List.mem_map.mp hk
  exact cellIndexOf_lt hR q

theorem mem_cellSlice {pos : List Vec3} {R : ℕ} {m : SharedMesh}
    (hb : build pos R = some m) {c : ℕ} (hc : c < R ^ 3) (x : ℕ) :
    x ∈ cellSlice m c ↔
      x < pos.length ∧ cellIndexOf m.pos_min m.cell_size R (pos.getD x default) = c := by
  obtain ⟨_, _, hcount, hoffset, hsort, _, _⟩ := build_fields hb
  unfold cellSlice
  rw [hcount, hoffset, hcount, hsort, sortIndexOf_slice _ hc, List.mem_filter]
  constructor
  · rintro ⟨hmem, hdec⟩
    have hx : x < pos.length := by
      have := List.mem_range.mp hmem
      simpa using this
    refine ⟨hx, ?_⟩
    rw [decide_eq_true_eq] at hdec
    rw [← hdec]
    exact (getD_map_getD (cellIndexOf m.pos_min m.cell_size R) pos hx 0).symm
  · rintro ⟨hx, hcell⟩
    constructor
    · exact List.mem_range.mpr (by simpa using hx)
    · rw [decide_eq_true_eq, getD_map_getD (cellIndexOf m.pos_min m.cell_size R) pos hx 0]
      exact hcell

theorem sort_idx_perm {pos : List Vec3} {R : ℕ} {m : SharedMesh}
    (hb : build pos R = some m) (hR : 1 ≤ R) :
    List.Perm m.sort_idx (List.range pos.length) := by
  obtain ⟨_, _, _, _, hsort, _, _⟩ := build_fields hb
  rw [hsort]
  have h := sortIndexOf_perm_range (keys_lt hb hR)
  simpa using h

theorem cellIndexOf_nonneg {pos_min cell_size : Vec3} {R : ℕ} (hR : 1 ≤ R) (q : Vec3) :
    0 ≤ cellCoordClip pos_min cell_size R q 0
        + (R : ℤ) * cellCoordClip pos_min cell_size R q 1
        + (R : ℤ) ^ 2 * cellCoordClip pos_min cell_size R q 2 :=
  lin_nonneg (cellCoordClip_bounds hR q 0).1 (cellCoordClip_bounds hR q 1).1
    (cellCoordClip_bounds hR q 2).1

theorem mem_query_iff {pos : List Vec3} {R : ℕ} {m : SharedMesh}
    (hb : build pos R = some m) (hR : 1 ≤ R) (q_min q_max : Vec3) (x : ℕ) :
    x ∈ m.query q_min q_max ↔
      x < pos.length ∧ ∀ d : Fin 3,
        cellCoordClip m.pos_min m.cell_size R q_min d
            ≤ cellCoordClip m.pos_min m.cell_size R (pos.getD x default) d ∧
          cellCoordClip m.pos_min m.cell_size R (pos.getD x default) d
            ≤ cellCoordClip m.pos_min m.cell_size R q_max d := by
  obtain ⟨hres, _, _, _, _, _, _⟩ := build_fields hb
  have hRZ : (1 : ℤ) ≤ (R : ℤ) := by exact_mod_cast hR
  constructor
  · intro hx
    simp only [SharedMesh.query, hres] at hx
    rw [List.mem_flatMap] at hx
    obtain ⟨k, hk, hx⟩ := hx
    rw [List.mem_flatMap] at hx
    obtain ⟨j, hj, hx⟩ := hx
    rw [List.mem_flatMap] at hx
    obtain ⟨i, hi, hx⟩ := hx
    obtain ⟨hk1, hk2⟩ := mem_intRange.mp hk
    obtain ⟨hj1, hj2⟩ := mem_intRange.mp hj
    obtain ⟨hi1, hi2⟩ := mem_intRange.mp hi
    have hmin0 := @cellCoordClip_bounds m.pos_min m.cell_size R hR q_min
    have hmax0 := @cellCoordClip_bounds m.pos_min m.cell_size R hR q_max
    have hib : 0 ≤ i ∧ i ≤ (R : ℤ) - 1 := ⟨le_trans (hmin0 0).1 hi1, le_trans hi2 (hmax0 0).2⟩
    have hjb : 0 ≤ j ∧ j ≤ (R : ℤ) - 1 := ⟨le_trans (hmin0 1).1 hj1, le_trans hj2 (hmax0 1).2⟩
    have hkb : 0 ≤ k ∧ k ≤ (R : ℤ) - 1 := ⟨le_trans (hmin0 2).1 hk1, le_trans hk2 (hmax0 2).2⟩
    have hcnr_lt : (i + (R : ℤ) * j + (R : ℤ) ^ 2 * k).toNat < R ^ 3 := lin_lt hR hib hjb hkb
    have hx' : x ∈ cellSlice m ((i + (R : ℤ) * j + (R : ℤ) ^ 2 * k).toNat) := by
      by_cases hcnt : 0 < m.cell_count.getD ((i + (R : ℤ) * j + (R : ℤ) ^ 2 * k).toNat) 0
      · rwa [if_pos hcnt] at hx
      · rw [if_neg hcnt] at hx
        exact absurd hx (List.not_mem_nil x)
    rw [mem_cellSlice hb hcnr_lt] at hx'
    obtain ⟨hxlen, hcell⟩ := hx'
    refine ⟨hxlen, ?_⟩
    have hzeq :
        cellCoordClip m.pos_min m.cell_size R (pos.getD x default) 0
            + (R : ℤ) * cellCoordClip m.pos_min m.cell_size R (pos.getD x default) 1
            + (R : ℤ) ^ 2 * cellCoordClip m.pos_min m.cell_size R (pos.getD x default) 2
          = i + (R : ℤ) * j + (R : ℤ) ^ 2 * k := by
      have hcast : (cellIndexOf m.pos_min m.cell_size R (pos.getD x default) : ℤ)
          = ((i + (R : ℤ) * j + (R : ℤ) ^ 2 * k).toNat : ℤ) := by exact_mod_cast hcell
      unfold cellIndexOf at hcast
      rw [Int.toNat_of_nonneg (cellIndexOf_nonneg hR (pos.getD x default)),
        Int.toNat_of_nonneg (lin_nonneg hib.1 hjb.1 hkb.1)] at hcast
      exact hcast
    have hpb := @cellCoordClip_bounds m.pos_min m.cell_size R hR
      (pos.getD x default)
    obtain ⟨h0, h1, h2⟩ :=
      three_digit_inj hRZ (hpb 0) (hpb 1) (hpb 2) hib hjb hkb hzeq
    intro d
    fin_cases d
    · show cellCoordClip m.pos_min m.cell_size R q_min 0
          ≤ cellCoordClip m.pos_min m.cell_size R (pos.getD x default) 0 ∧
        cellCoordClip m.pos_min m.cell_size R (pos.getD x default) 0
          ≤ cellCoordClip m.pos_min m.cell_size R q_max 0
      omega
    · show cellCoordClip m.pos_min m.cell_size R q_min 1
          ≤ cellCoordClip m.pos_min m.cell_size R (pos.getD x default) 1 ∧
        cellCoordClip m.pos_min m.cell_size R (pos.getD x default) 1
          ≤ cellCoordClip m.pos_min m.cell_size R q_max 1
      omega
    · show cellCoordClip m.pos_min m.cell_size R q_min 2
          ≤ cellCoordClip m.pos_min m.cell_size R (pos.getD x default) 2 ∧
        cellCoordClip m.pos_min m.cell_size R (pos.getD x default) 2
          ≤ cellCoordClip m.pos_min m.cell_size R q_max 2
      omega
  · rintro ⟨hxlen, hbounds⟩
    have hcellp_lt := @cellIndexOf_lt m.pos_min m.cell_size R hR
      (pos.getD x default)
    have hx' : x ∈ cellSlice m (cellIndexOf m.pos_min m.cell_size R (pos.getD x default)) :=
      (mem_cellSlice hb hcellp_lt x).mpr ⟨hxlen, rfl⟩
    simp only [SharedMesh.query, hres]
    rw [List.mem_flatMap]
    refine ⟨cellCoordClip m.pos_min m.cell_size R (pos.getD x default) 2,
      mem_intRange.mpr ⟨(hbounds 2).1, (hbounds 2).2⟩, ?_⟩
    rw [List.mem_flatMap]
    refine ⟨cellCoordClip m.pos_min m.cell_size R (pos.getD x default) 1,
      mem_intRange.mpr ⟨(hbounds 1).1, (hbounds 1).2⟩, ?_⟩
    rw [List.mem_flatMap]
    refine ⟨cellCoordClip m.pos_min m.cell_size R (pos.getD x default) 0,
      mem_intRange.mpr ⟨(hbounds 0).1, (hbounds 0).2⟩, ?_⟩
    have hkey :
        (cellCoordClip m.pos_min m.cell_size R (pos.getD x default) 0
            + (R : ℤ) * cellCoordClip m.pos_min m.cell_size R (pos.getD x default) 1
            + (R : ℤ) ^ 2 * cellCoordClip m.pos_min m.cell_size R (pos.getD x default) 2).toNat
          = cellIndexOf m.pos_min m.cell_size R (pos.getD x default) := rfl
    rw [hkey]
    have hcnt : 0 < m.cell_count.getD
        (cellIndexOf m.pos_min m.cell_size R (pos.getD x default)) 0 := by
      by_contra hcnt
      have hzero : m.cell_count.getD
          (cellIndexOf m.pos_min m.cell_size R (pos.getD x default)) 0 = 0 := by omega
      have hslice : cellSlice m (cellIndexOf m.pos_min m.cell_size R (pos.getD x default)) = [] := by
        unfold cellSlice
        rw [hzero]
        exact List.take_zero _
      rw [hslice] at hx'
      exact absurd hx' (List.not_mem_nil x)
    rw [if_pos hcnt]
    exact hx'

theorem mem_query_radius_iff {pos : List Vec3} {R : ℕ} {m : SharedMesh}
    (hb : build pos R = some m) (hR : 1 ≤ R) (centre : Vec3) (radius : ℚ) (x : ℕ) :
    x ∈ m.query_radius centre radius pos ↔
      x < pos.length ∧
      (∀ d : Fin 3,
        cellCoordClip m.pos_min m.cell_size R (fun e => centre e - radius) d
            ≤ cellCoordClip m.pos_min m.cell_size R (pos.getD x default) d ∧
          cellCoordClip m.pos_min m.cell_size R (pos.getD x default) d
            ≤ cellCoordClip m.pos_min m.cell_size R (fun e => centre e + radius) d) ∧
      squared_distance (pos.getD x default) centre ≤ radius * radius := by
  obtain ⟨hres, _, _, _, _, _, _⟩ := build_fields hb
  have hRZ : (1 : ℤ) ≤ (R : ℤ) := by exact_mod_cast hR
  constructor
  · intro hx
    simp only [SharedMesh.query_radius, hres] at hx
    rw [List.mem_flatMap] at hx
    obtain ⟨k, hk, hx⟩ := hx
    rw [List.mem_flatMap] at hx
    obtain ⟨j, hj, hx⟩ := hx
    rw [List.mem_flatMap] at hx
    obtain ⟨i, hi, hx⟩ := hx
    obtain ⟨hk1, hk2⟩ := mem_intRange.mp hk
    obtain ⟨hj1, hj2⟩ := mem_intRange.mp hj
    obtain ⟨hi1, hi2⟩ := mem_intRange.mp hi
    have hmin0 := @cellCoordClip_bounds m.pos_min m.cell_size R hR
      (fun e => centre e - radius)
    have hmax0 := @cellCoordClip_bounds m.pos_min m.cell_size R hR
      (fun e => centre e + radius)
    have hib : 0 ≤ i ∧ i ≤ (R : ℤ) - 1 := ⟨le_trans (hmin0 0).1 hi1, le_trans hi2 (hmax0 0).2⟩
    have hjb : 0 ≤ j ∧ j ≤ (R : ℤ) - 1 := ⟨le_trans (hmin0 1).1 hj1, le_trans hj2 (hmax0 1).2⟩
    have hkb : 0 ≤ k ∧ k ≤ (R : ℤ) - 1 := ⟨le_trans (hmin0 2).1 hk1, le_trans hk2 (hmax0 2).2⟩
    have hcnr_lt : (i + (R : ℤ) * j + (R : ℤ) ^ 2 * k).toNat < R ^ 3 := lin_lt hR hib hjb hkb
    have hx' : x ∈ (cellSlice m ((i + (R : ℤ) * j + (R : ℤ) ^ 2 * k).toNat)).filter
        (fun y => decide (squared_distance (pos.getD y default) centre ≤ radius * radius)) := by
      by_cases hcnt : 0 < m.cell_count.getD ((i + (R : ℤ) * j + (R : ℤ) ^ 2 * k).toNat) 0
      · rwa [if_pos hcnt] at hx
      · rw [if_neg hcnt] at hx
        exact absurd hx (List.not_mem_nil x)
    rw [List.mem_filter] at hx'
    obtain ⟨hxslice, hxdist⟩ := hx'
    rw [decide_eq_true_eq] at hxdist
    rw [mem_cellSlice hb hcnr_lt] at hxslice
    obtain ⟨hxlen, hcell⟩ := hxslice
    refine ⟨hxlen, ?_, hxdist⟩
    have hzeq :
        cellCoordClip m.pos_min m.cell_size R (pos.getD x default) 0
            + (R : ℤ) * cellCoordClip m.pos_min m.cell_size R (pos.getD x default) 1
            + (R : ℤ) ^ 2 * cellCoordClip m.pos_min m.cell_size R (pos.getD x default) 2
          = i + (R : ℤ) * j + (R : ℤ) ^ 2 * k := by
      have hcast : (cellIndexOf m.pos_min m.cell_size R (pos.getD x default) : ℤ)
          = ((i + (R : ℤ) * j + (R : ℤ) ^ 2 * k).toNat : ℤ) := by exact_mod_cast hcell
      unfold cellIndexOf at hcast
      rw [Int.toNat_of_nonneg (cellIndexOf_nonneg hR (pos.getD x default)),
        Int.toNat_of_nonneg (lin_nonneg hib.1 hjb.1 hkb.1)] at hcast
      exact hcast
    have hpb := @cellCoordClip_bounds m.pos_min m.cell_size R hR
      (pos.getD x default)
    obtain ⟨h0, h1, h2⟩ :=
      three_digit_inj hRZ (hpb 0) (hpb 1) (hpb 2) hib hjb hkb hzeq
    intro d
    fin_cases d
    · show cellCoordClip m.pos_min m.cell_size R (fun e => centre e - radius) 0
          ≤ cellCoordClip m.pos_min m.cell_size R (pos.getD x default) 0 ∧
        cellCoordClip m.pos_min m.cell_size R (pos.getD x default) 0
          ≤ cellCoordClip m.pos_min m.cell_size R (fun e => centre e + radius) 0
      omega
    · show cellCoordClip m.pos_min m.cell_size R (fun e => centre e - radius) 1
          ≤ cellCoordClip m.pos_min m.cell_size R (pos.getD x default) 1 ∧
        cellCoordClip m.pos_min m.cell_size R (pos.getD x default) 1
          ≤ cellCoordClip m.pos_min m.cell_size R (fun e => centre e + radius) 1
      omega
    · show cellCoordClip m.pos_min m.cell_size R (fun e => centre e - radius) 2
          ≤ cellCoordClip m.pos_min m.cell_size R (pos.getD x default) 2 ∧
        cellCoordClip m.pos_min m.cell_size R (pos.getD x default) 2
          ≤ cellCoordClip m.pos_min m.cell_size R (fun e => centre e + radius) 2
      omega
  · rintro ⟨hxlen, hbounds, hdist⟩
    have hcellp_lt := @cellIndexOf_lt m.pos_min m.cell_size R hR
      (pos.getD x default)
    have hx' : x ∈ cellSlice m (cellIndexOf m.pos_min m.cell_size R (pos.getD x default)) :=
      (mem_cellSlice hb hcellp_lt x).mpr ⟨hxlen, rfl⟩
    simp only [SharedMesh.query_radius, hres]
    rw [List.mem_flatMap]
    refine ⟨cellCoordClip m.pos_min m.cell_size R (pos.getD x default) 2,
      mem_intRange.mpr ⟨(hbounds 2).1, (hbounds 2).2⟩, ?_⟩
    rw [List.mem_flatMap]
    refine ⟨cellCoordClip m.pos_min m.cell_size R (pos.getD x default) 1,
      mem_intRange.mpr ⟨(hbounds 1).1, (hbounds 1).2⟩, ?_⟩
    rw [List.mem_flatMap]
    refine ⟨cellCoordClip m.pos_min m.cell_size R (pos.getD x default) 0,
      mem_intRange.mpr ⟨(hbounds 0).1, (hbounds 0).2⟩, ?_⟩
    have hkey :
        (cellCoordClip m.pos_min m.cell_size R (pos.getD x default) 0
            + (R : ℤ) * cellCoordClip m.pos_min m.cell_size R (pos.getD x default) 1
            + (R : ℤ) ^ 2 * cellCoordClip m.pos_min m.cell_size R (pos.getD x default) 2).toNat
          = cellIndexOf m.pos_min m.cell_size R (pos.getD x default) := rfl
    rw [hkey]
    have hcnt : 0 < m.cell_count.getD
        (cellIndexOf m.pos_min m.cell_size R (pos.getD x default)) 0 := by
      by_contra hcnt
      have hzero : m.cell_count.getD
          (cellIndexOf m.pos_min m.cell_size R (pos.getD x default)) 0 = 0 := by omega
      have hslice : cellSlice m (cellIndexOf m.pos_min m.cell_size R (pos.getD x default)) = [] := by
        unfold cellSlice
        rw [hzero]
        exact List.take_zero _
      rw [hslice] at hx'
      exact absurd hx' (List.not_mem_nil x)
    rw [if_pos hcnt]
    rw [List.mem_filter]
    exact ⟨hx', decide_eq_true hdist⟩

theorem sq_component_le (a b : Vec3) (d : Fin 3) :
    (a d - b d) ^ 2 ≤ squared_distance a b := by
  fin_cases d
  · show (a 0 - b 0) ^ 2 ≤ squared_distance a b
    unfold squared_distance
    nlinarith [sq_nonneg (a 1 - b 1), sq_nonneg (a 2 - b 2)]
  · show (a 1 - b 1) ^ 2 ≤ squared_distance a b
    unfold squared_distance
    nlinarith [sq_nonneg (a 0 - b 0), sq_nonneg (a 2 - b 2)]
  · show (a 2 - b 2) ^ 2 ≤ squared_distance a b
    unfold squared_distance
    nlinarith [sq_nonneg (a 0 - b 0), sq_nonneg (a 1 - b 1)]

/-- Claim C1: for every built index, centre and radius `r >= 0`,
`query_radius(centre, r, pos)` returns exactly the set of global particle
indices whose squared Euclidean distance from the centre is at most `r^2`:
membership in the result is equivalent to the true distance constraint. -/
theorem claim_c1_query_radius_exact {pos : List Vec3} {R : ℕ} {m : SharedMesh}
    (hb : build pos R = some m) (hR : 1 ≤ R) (centre : Vec3) (radius : ℚ)
    (hrad : 0 ≤ radius) (x : ℕ) :
    x ∈ m.query_radius centre radius pos ↔
      x < pos.length ∧ squared_distance (pos.getD x default) centre ≤ radius * radius := by
  rw [mem_query_radius_iff hb hR]
  constructor
  · rintro ⟨h1, _, h3⟩
    exact ⟨h1, h3⟩
  · rintro ⟨h1, h3⟩
    refine ⟨h1, ?_, h3⟩
    intro d
    have hsq := sq_component_le (pos.getD x default) centre d
    have hr2 : radius * radius = radius ^ 2 := by ring
    have hcomp : ((pos.getD x default) d - centre d) ^ 2 ≤ radius ^ 2 := by
      rw [← hr2]
      linarith
    have habs := abs_le_of_sq_le_sq' hcomp hrad
    constructor
    · apply cellCoordClip_mono d (cell_size_nonneg hb d)
      show centre d - radius ≤ (pos.getD x default) d
      linarith [habs.1]
    · apply cellCoordClip_mono d (cell_size_nonneg hb d)
      show (pos.getD x default) d ≤ centre d + radius
      linarith [habs.2]

/-- Witness for C1, the spec's Scenario C: on the three scenario particles,
particle 0 at distance-squared `3/400 <= 1/100` from `(0.15, 0.15, 0.15)` is
returned by `query_radius` with radius `0.1`. -/
theorem claim_c1_witness :
    0 ∈ scenarioMesh.query_radius ![3/20, 3/20, 3/20] (1/10) scenarioPos :=
  (claim_c1_query_radius_exact (rfl : build scenarioPos 2 = some scenarioMesh)
    (by decide) ![3/20, 3/20, 3/20] (1/10) (by decide) 0).mpr ⟨by decide, by decide⟩

/-- Claim C2: for every built index and query box, `query(pos_min, pos_max)`
contains every particle whose position lies in `[pos_min, pos_max)`
component-wise (no false negatives), and every returned index is a particle of
the full set lying in one of the enumerated cells: its clipped cell coordinate
is between the clipped coordinates of the two box corners on every axis. -/
theorem claim_c2_query_box_conservative {pos : List Vec3} {R : ℕ} {m : SharedMesh}
    (hb : build pos R = some m) (hR : 1 ≤ R) (q_min q_max : Vec3) :
    (∀ x, x < pos.length →
      (∀ d, q_min d ≤ (pos.getD x default) d ∧ (pos.getD x default) d < q_max d) →
      x ∈ m.query q_min q_max) ∧
    (∀ x, x ∈ m.query q_min q_max → x < pos.length ∧ ∀ d,
      cellCoordClip m.pos_min m.cell_size R q_min d
          ≤ cellCoordClip m.pos_min m.cell_size R (pos.getD x default) d ∧
        cellCoordClip m.pos_min m.cell_size R (pos.getD x default) d
          ≤ cellCoordClip m.pos_min m.cell_size R q_max d) := by
  constructor
  · intro x hx hbox
    apply (mem_query_iff hb hR q_min q_max x).mpr
    refine ⟨hx, fun d => ?_⟩
    constructor
    · exact cellCoordClip_mono d (cell_size_nonneg hb d) (hbox d).1
    · exact cellCoordClip_mono d (cell_size_nonneg hb d) (le_of_lt (hbox d).2)
  · intro x hx
    exact (mem_query_iff hb hR q_min q_max x).mp hx

/-- Witness for C2: on the scenario data, particle 0 at (0.1, 0.1, 0.1) lies
inside the box `[0, 1.5)^3` and is returned by `query`. -/
theorem claim_c2_witness :
    0 ∈ scenarioMesh.query ![0, 0, 0] ![3/2, 3/2, 3/2] :=
  (claim_c2_query_box_conservative (rfl : build scenarioPos 2 = some scenarioMesh)
    (by decide) ![0, 0, 0] ![3/2, 3/2, 3/2]).1 0 (by decide) (by decide)

/-- Claim C3: after construction with `N` particles, the sort index is a
permutation of `[0, N)`, and for every cell `c` the sub-range
`SortIndex[CellOffset[c] : CellOffset[c]+CellCount[c]]` contains exactly the
global indices of the particles whose computed cell index equals `c`. -/
theorem claim_c3_sort_index_partition {pos : List Vec3} {R : ℕ} {m : SharedMesh}
    (hb : build pos R = some m) (hR : 1 ≤ R) :
    List.Perm m.sort_idx (List.range pos.length) ∧
    ∀ c, c < R ^ 3 → ∀ x,
      (x ∈ cellSlice m c ↔
        x < pos.length ∧ cellIndexOf m.pos_min m.cell_size R (pos.getD x default) = c) :=
  ⟨sort_idx_perm hb hR, fun _ hc x => mem_cellSlice hb hc x⟩

/-- Witness for C3: on the scenario data, the slice of cell 1 contains exactly
particle 2 (position (1.1, 0.1, 0.1)). -/
theorem claim_c3_witness : 2 ∈ cellSlice scenarioMesh 1 :=
  ((claim_c3_sort_index_partition (rfl : build scenarioPos 2 = some scenarioMesh)
    (by decide)).2 1 (by decide) 2).mpr ⟨by decide, by decide⟩

/-- Claim C5: after construction `CellOffset` is the exclusive prefix sum of
`CellCount`: entry 0 is 0, entry `c` is entry `c-1` plus count `c-1`, and the
offsets are monotonically non-decreasing. -/
theorem claim_c5_cell_offset_prefix_sum {pos : List Vec3} {R : ℕ} {m : SharedMesh}
    (hb : build pos R = some m) (hR : 1 ≤ R) :
    m.cell_offset.getD 0 0 = 0 ∧
    (∀ c, 0 < c → c < R ^ 3 →
      m.cell_offset.getD c 0 = m.cell_offset.getD (c - 1) 0 + m.cell_count.getD (c - 1) 0) ∧
    (∀ c₁ c₂, c₁ ≤ c₂ → c₂ < R ^ 3 →
      m.cell_offset.getD c₁ 0 ≤ m.cell_offset.getD c₂ 0) := by
  obtain ⟨_, _, hcount, hoffset, _, _, _⟩ := build_fields hb
  have hclen : m.cell_count.length = R ^ 3 := by
    rw [hcount]
    exact bincount_length _ _
  have hR3 : 0 < R ^ 3 := by positivity
  refine ⟨?_, ?_, ?_⟩
  · rw [hoffset, cellOffsetOf_getD _ (by omega)]
    simp
  · intro c hc0 hcR
    obtain ⟨c', rfl⟩ : ∃ c', c = c' + 1 := ⟨c - 1, by omega⟩
    have hc'lt : c' < m.cell_count.length := by omega
    rw [hoffset, cellOffsetOf_getD _ (by omega), cellOffsetOf_getD _ (by omega)]
    simp only [Nat.add_sub_cancel]
    rw [List.take_succ, List.getElem?_eq_getElem hc'lt]
    simp only [Option.toList_some, List.sum_append, List.sum_cons, List.sum_nil]
    rw [List.getD_eq_getElem _ 0 hc'lt]
    omega
  · intro c₁ c₂ hle hc₂
    rw [hoffset, cellOffsetOf_getD _ (by omega), cellOffsetOf_getD _ (by omega)]
    have h1 : m.cell_count.take c₁ = (m.cell_count.take c₂).take c₁ := by
      rw [List.take_take, min_eq_left hle]
    rw [h1]
    conv_rhs => rw [← List.take_append_drop c₁ (m.cell_count.take c₂)]
    rw [List.sum_append]
    exact Nat.le_add_right _ _

/-- Witness for C5: on the scenario data, offset 0 is 0, offset 7 is
offset 6 plus count 6, and offsets are monotone from cell 0 to cell 7. -/
theorem claim_c5_witness :
    scenarioMesh.cell_offset.getD 0 0 = 0 ∧
    scenarioMesh.cell_offset.getD 7 0
      = scenarioMesh.cell_offset.getD 6 0 + scenarioMesh.cell_count.getD 6 0 :=
  have h := claim_c5_cell_offset_prefix_sum
    (rfl : build scenarioPos 2 = some scenarioMesh) (by decide)
  ⟨h.1, h.2.1 7 (by decide) (by decide)⟩

/-- Counterexample to claim C4: with the scenario particles and resolution 2,
`query((0,0,0), (1.5,1.5,1.5))` floors the upper corner to cell coordinate 1 on
every axis, so all eight cells are enumerated and index 1 (the particle in
cell 7) is returned, contrary to the claim that it is not. -/
theorem claim_c4_counterexample :
    1 ∈ ((build scenarioPos 2).map
      (fun m => m.query ![0, 0, 0] ![3/2, 3/2, 3/2])).getD [] := by decide

/-- Claim C4 as amended: with resolution 2 and the three scenario particles
(assigned to cells 0, 7 and 1, as the claim states), the call
`query((0,0,0), (1.5,1.5,1.5))` returns indices 0 and 2 and additionally
index 1, because the enumerated cell range is all of `\x7b0,1\x7d^3` and so
includes cell 7.  (The built mesh derives its bounding box from the particles,
(0.1,..)-(1.9,..); the cell assignment 0, 7, 1 agrees with the claim.) -/
theorem claim_c4_amended :
    (build scenarioPos 2).map
        (fun m => scenarioPos.map (cellIndexOf m.pos_min m.cell_size m.resolution))
      = some [0, 7, 1] ∧
    (build scenarioPos 2).map (fun m => m.query ![0, 0, 0] ![3/2, 3/2, 3/2])
      = some [0, 2, 1] := ⟨by decide, by decide⟩

/-- Claim C6 as amended: a particle (or any position) lying exactly at
`pos_max` on an axis of positive extent gets clipped per-axis cell coordinate
`resolution - 1` there, and its linearized cell index is in range.  (On a
degenerate axis, where `pos_max` equals `pos_min`, the coordinate is 0
instead; see the counterexample.) -/
theorem claim_c6_boundary_amended {pos : List Vec3} {R : ℕ} {m : SharedMesh}
    (hb : build pos R = some m) (hR : 1 ≤ R) (q : Vec3) (d : Fin 3)
    (hq : q d = m.pos_max d) (hext : m.pos_min d < m.pos_max d) :
    cellCoordClip m.pos_min m.cell_size R q d = (R : ℤ) - 1 ∧
    cellIndexOf m.pos_min m.cell_size R q < R ^ 3 := by
  obtain ⟨_, hcs, _, _, _, _, _⟩ := build_fields hb
  refine ⟨?_, cellIndexOf_lt hR q⟩
  unfold cellCoordClip
  rw [hq, hcs d]
  have hene : m.pos_max d - m.pos_min d ≠ 0 := by
    intro h
    have := sub_pos.mpr hext
    rw [h] at this
    exact lt_irrefl 0 this
  have hquot : (m.pos_max d - m.pos_min d) / ((m.pos_max d - m.pos_min d) / (R : ℚ))
      = (R : ℚ) := by
    rw [div_div_eq_mul_div, mul_comm, mul_div_assoc, div_self hene, mul_one]
  rw [hquot]
  have hfloor : Int.floor ((R : ℚ)) = (R : ℤ) := by
    rw [show ((R : ℚ)) = (((R : ℤ) : ℚ)) by push_cast; rfl]
    exact Int.floor_intCast _
  rw [hfloor]
  unfold clip
  have hRZ : (1 : ℤ) ≤ (R : ℤ) := by exact_mod_cast hR
  omega

/-- Witness for the amended C6: in a box with positive extent (0,0,0)-(2,2,2)
at resolution 2, the particle at the maximum corner (2,2,2) gets clipped axis
coordinate 1 = resolution - 1 and an in-range cell index. -/
theorem claim_c6_witness :
    cellCoordClip cornerMesh.pos_min cornerMesh.cell_size 2 ![2, 2, 2] 0 = (2 : ℤ) - 1 ∧
    cellIndexOf cornerMesh.pos_min cornerMesh.cell_size 2 ![2, 2, 2] < 2 ^ 3 :=
  claim_c6_boundary_amended (rfl : build cornerPos 2 = some cornerMesh) (by decide)
    ![2, 2, 2] 0 (by decide) (by decide)

/-- Counterexample to claim C6 as stated: with both particles at x = 5 the
bounding box is degenerate on axis 0, and the particle at `pos_max` on that
axis gets clipped cell coordinate 0, not `resolution - 1 = 1`. -/
theorem claim_c6_counterexample :
    build degeneratePos 2 = some degenerateMesh ∧
    (![5, 0, 0] : Vec3) 0 = degenerateMesh.pos_max 0 ∧
    cellCoordClip degenerateMesh.pos_min degenerateMesh.cell_size 2 ![5, 0, 0] 0 = 0 ∧
    (0 : ℤ) ≠ (2 : ℤ) - 1 :=
  ⟨rfl, by decide, by decide, by decide⟩

/-- Claim C7 as amended: with zero total particles the construction fails
(`np.amin` over an empty axis raises `ValueError`, modelled as `none`); the
all-zero `CellCount`/`CellOffset` and empty `SortIndex` promised by the claim
are never produced, and no query can be made. -/
theorem claim_c7_empty_amended (resolution : ℕ) :
    build ([] : List Vec3) resolution = none := rfl

/-- Witness instantiating the amended C7 at resolution 3. -/
theorem claim_c7_witness : build ([] : List Vec3) 3 = none := claim_c7_empty_amended 3

/-- Counterexample to claim C7 as stated: at resolution 2, construction on
zero particles does not succeed, so it cannot produce the promised arrays. -/
theorem claim_c7_counterexample : build ([] : List Vec3) 2 = none := rfl

/-- Claim C8: when the global bounding box has zero extent on some axis, the
cell size is 0 there and the cell-assignment computation is still well
defined: the division by the zero cell size yields cell coordinate 0 on that
axis after clipping (exactly what the numpy NaN -> int cast -> clip chain
produces), and every position's linearized cell index stays in range. -/
theorem claim_c8_degenerate_axis {pos : List Vec3} {R : ℕ} {m : SharedMesh}
    (hb : build pos R = some m) (hR : 1 ≤ R) (d : Fin 3)
    (hdeg : m.pos_max d = m.pos_min d) :
    m.cell_size d = 0 ∧ ∀ q : Vec3,
      cellCoordClip m.pos_min m.cell_size R q d = 0 ∧
      cellIndexOf m.pos_min m.cell_size R q < R ^ 3 := by
  obtain ⟨_, hcs, _, _, _, _, _⟩ := build_fields hb
  have hzero : m.cell_size d = 0 := by
    rw [hcs d, hdeg]
    simp
  refine ⟨hzero, fun q => ⟨?_, cellIndexOf_lt hR q⟩⟩
  unfold cellCoordClip
  rw [hzero, div_zero]
  rw [Int.floor_zero]
  unfold clip
  have hRZ : (1 : ℤ) ≤ (R : ℤ) := by exact_mod_cast hR
  omega

/-- Witness for C8: the mesh over two particles with equal x has a degenerate
axis 0; the cell size is 0 there and an arbitrary position (9,9,9) still gets
axis coordinate 0 and an in-range cell index. -/
theorem claim_c8_witness :
    degenerateMesh.cell_size 0 = 0 ∧
    cellCoordClip degenerateMesh.pos_min degenerateMesh.cell_size 2 ![9, 9, 9] 0 = 0 ∧
    cellIndexOf degenerateMesh.pos_min degenerateMesh.cell_size 2 ![9, 9, 9] < 2 ^ 3 :=
  have h := claim_c8_degenerate_axis (rfl : build degeneratePos 2 = some degenerateMesh)
    (by decide) 0 (by decide)
  ⟨h.1, (h.2 ![9, 9, 9]).1, (h.2 ![9, 9, 9]).2⟩

/-! Lemmas about the dict model and the alias resolution layer. -/

theorem dictLookup_dictSet_self {β : Type _} :
    ∀ (m : List (String × β)) (k : String) (v : β),
      dictLookup (dictSet m k v) k = some v := by
  intro m
  induction m with
  | nil =>
    intro k v
    simp [dictSet, dictLookup]
  | cons e t ih =>
    intro k v
    obtain ⟨a, b⟩ := e
    by_cases h : a = k
    · simp [dictSet, h, dictLookup]
    · simp [dictSet, h, dictLookup, ih]

theorem dictLookup_dictSet_other {β : Type _} :
    ∀ (m : List (String × β)) (k : String) (v : β) (k' : String), k ≠ k' →
      dictLookup (dictSet m k v) k' = dictLookup m k' := by
  intro m
  induction m with
  | nil =>
    intro k v k' h
    simp [dictSet, dictLookup, h]
  | cons e t ih =>
    intro k v k' h
    obtain ⟨a, b⟩ := e
    show dictLookup (if a = k then (a, v) :: t else (a, b) :: dictSet t k v) k'
        = if a = k' then some b else dictLookup t k'
    by_cases ha : a = k
    · rw [if_pos ha]
      show (if a = k' then some v else dictLookup t k') = _
      have ha' : a ≠ k' := by
        rw [ha]
        exact h
      rw [if_neg ha', if_neg ha']
    · rw [if_neg ha]
      show (if a = k' then some b else dictLookup (dictSet t k v) k') = _
      by_cases ha' : a = k'
      · rw [if_pos ha', if_pos ha']
      · rw [if_neg ha', if_neg ha', ih k v k' h]

theorem dictLookup_foldl_dictSet {β : Type _} (k : String) (v : β) :
    ∀ (l : List (String × β)) (init : List (String × β)),
      (∀ e ∈ l, e.1 = k → e.2 = v) →
      ((∃ e ∈ l, e.1 = k) ∨ dictLookup init k = some v) →
      dictLookup (l.foldl (fun mm e => dictSet mm e.1 e.2) init) k = some v := by
  intro l
  induction l with
  | nil =>
    rintro init _ (⟨e, he, _⟩ | hl)
    · exact absurd he (List.not_mem_nil e)
    · simpa using hl
  | cons e t ih =>
    rintro init hval hocc
    simp only [List.foldl_cons]
    apply ih
    · exact fun e' he' => hval e' (List.mem_cons_of_mem e he')
    · by_cases hk : e.1 = k
      · right
        rw [hk, dictLookup_dictSet_self, hval e (List.mem_cons_self e t) hk]
      · rcases hocc with ⟨e', he', hk'⟩ | hl
        · rcases List.mem_cons.mp he' with rfl | he''
          · exact absurd hk' hk
          · left
            exact ⟨e', he'', hk'⟩
        · right
          rw [dictLookup_dictSet_other _ _ _ _ hk]
          exact hl

theorem baseDatasetMap_eq (file : List (String × List String)) :
    baseDatasetMap file = (baseWrites file).foldl (fun mm e => dictSet mm e.1 e.2) [] := by
  have hgen : ∀ (f : List (String × List String)) (init : List (String × (String × String))),
      f.foldl
        (fun mm e =>
          (e.2 ++ ["GroupNr_all", "GroupNr_bound"]).foldl
            (fun m' dset => dictSet m' (e.1 ++ "/" ++ dset) (e.1, dset)) mm) init
        = (baseWrites f).foldl (fun mm e => dictSet mm e.1 e.2) init := by
    intro f
    induction f with
    | nil => intro init; rfl
    | cons e t ih =>
      intro init
      have hbw : baseWrites (e :: t)
          = ((e.2 ++ ["GroupNr_all", "GroupNr_bound"]).map
              (fun dset => (e.1 ++ "/" ++ dset, (e.1, dset)))) ++ baseWrites t := by
        unfold baseWrites
        rw [List.flatMap_cons]
      rw [List.foldl_cons, hbw]
      conv_rhs => rw [List.foldl_append, List.foldl_map]
      exact ih _
  exact hgen file []

theorem charlist_sep_inj (sep : Char) :
    ∀ (l₁ l₂ m₁ m₂ : List Char), sep ∉ l₁ → sep ∉ l₂ →
      l₁ ++ sep :: m₁ = l₂ ++ sep :: m₂ → l₁ = l₂ ∧ m₁ = m₂ := by
  intro l₁
  induction l₁ with
  | nil =>
    intro l₂ m₁ m₂ h1 h2 heq
    cases l₂ with
    | nil =>
      simp only [List.nil_append, List.cons.injEq] at heq
      exact ⟨rfl, heq.2⟩
    | cons b t =>
      simp only [List.nil_append, List.cons_append, List.cons.injEq] at heq
      have hmem : sep ∈ b :: t := by
        rw [heq.1]
        exact List.mem_cons_self b t
      exact absurd hmem h2
  | cons a t ih =>
    intro l₂ m₁ m₂ h1 h2 heq
    cases l₂ with
    | nil =>
      simp only [List.cons_append, List.nil_append, List.cons.injEq] at heq
      have hmem : sep ∈ a :: t := by
        rw [← heq.1]
        exact List.mem_cons_self a t
      exact absurd hmem h1
    | cons b t₂ =>
      simp only [List.cons_append, List.cons.injEq] at heq
      obtain ⟨hab, heq'⟩ := heq
      subst hab
      have h1' : sep ∉ t := fun hmem => h1 (List.mem_cons_of_mem a hmem)
      have h2' : sep ∉ t₂ := fun hmem => h2 (List.mem_cons_of_mem a hmem)
      obtain ⟨he1, he2⟩ := ih t₂ m₁ m₂ h1' h2' heq'
      exact ⟨by rw [he1], he2⟩

theorem string_key_inj {pt₁ pt₂ ds₁ ds₂ : String}
    (h1 : ('/' : Char) ∉ pt₁.data) (h2 : ('/' : Char) ∉ pt₂.data)
    (heq : pt₁ ++ "/" ++ ds₁ = pt₂ ++ "/" ++ ds₂) : pt₁ = pt₂ ∧ ds₁ = ds₂ := by
  have hdata : pt₁.data ++ '/' :: ds₁.data = pt₂.data ++ '/' :: ds₂.data := by
    have h := congrArg String.data heq
    simpa [String.data_append] using h
  obtain ⟨hpt, hds⟩ := charlist_sep_inj '/' pt₁.data pt₂.data ds₁.data ds₂.data h1 h2 hdata
  constructor
  · cases pt₁
    cases pt₂
    exact congrArg String.mk hpt
  · cases ds₁
    cases ds₂
    exact congrArg String.mk hds

theorem baseWrites_val {file : List (String × List String)}
    (hslash : ∀ e ∈ file, ('/' : Char) ∉ e.1.data)
    {pt ds : String} (hpt : ('/' : Char) ∉ pt.data) :
    ∀ w ∈ baseWrites file, w.1 = pt ++ "/" ++ ds → w.2 = (pt, ds) := by
  intro w hw hkey
  unfold baseWrites at hw
  rw [List.mem_flatMap] at hw
  obtain ⟨e, he, hw'⟩ := hw
  rw [List.mem_map] at hw'
  obtain ⟨ds', _, rfl⟩ := hw'
  obtain ⟨h1, h2⟩ := string_key_inj (hslash e he) hpt hkey
  simp [h1, h2]

theorem baseWrites_mem {file : List (String × List String)} {pt : String}
    {dsets : List String} (hmem : (pt, dsets) ∈ file) {ds : String}
    (hds : ds ∈ dsets ++ ["GroupNr_all", "GroupNr_bound"]) :
    ((pt ++ "/" ++ ds, (pt, ds)) : String × (String × String)) ∈ baseWrites file := by
  unfold baseWrites
  rw [List.mem_flatMap]
  refine ⟨(pt, dsets), hmem, ?_⟩
  rw [List.mem_map]
  exact ⟨ds, hds, rfl⟩

theorem baseDatasetMap_lookup {file : List (String × List String)}
    (hslash : ∀ e ∈ file, ('/' : Char) ∉ e.1.data) {pt : String}
    {dsets : List String} (hmem : (pt, dsets) ∈ file) {ds : String}
    (hds : ds ∈ dsets ++ ["GroupNr_all", "GroupNr_bound"]) :
    dictLookup (baseDatasetMap file) (pt ++ "/" ++ ds) = some (pt, ds) := by
  rw [baseDatasetMap_eq]
  apply dictLookup_foldl_dictSet
  · exact baseWrites_val hslash (hslash (pt, dsets) hmem)
  · left
    exact ⟨(pt ++ "/" ++ ds, (pt, ds)), baseWrites_mem hmem hds, rfl⟩

theorem applyAliases_lookup (k : String) :
    ∀ (aliases : List (String × String)) (st st' : SnapshotDatasets),
      (aliases.foldlM applyAlias st : Option SnapshotDatasets) = some st' →
      (∀ a ∈ aliases, a.1 ≠ k) →
      dictLookup st'.dataset_map k = dictLookup st.dataset_map k := by
  intro aliases
  induction aliases with
  | nil =>
    intro st st' h _
    simp only [List.foldlM_nil, pure, Option.some.injEq] at h
    rw [← h]
  | cons a t ih =>
    intro st st' h hk
    rw [List.foldlM_cons] at h
    cases happ : applyAlias st a with
    | none =>
      rw [happ] at h
      simp at h
    | some st₁ =>
      rw [happ] at h
      simp only [Option.bind_eq_bind, Option.some_bind] at h
      have hres := ih st₁ st' h (fun a' ha' => hk a' (List.mem_cons_of_mem a ha'))
      rw [hres]
      unfold applyAlias at happ
      split at happ
      · rw [Option.some_inj] at happ
        rw [← happ]
        exact dictLookup_dictSet_other _ _ _ _ (hk a (List.mem_cons_self a t))
      · exact absurd happ (by simp)

/-- Claim C9: `get_dataset(name, data_dict)` re-raises the original
`KeyError` (carrying the missing name, after printing the available keys,
which is I/O only) when the name is absent from the dataset map, and returns
`data_dict[ptype][dset]` when `dataset_map[name] = (ptype, dset)`.  The
embedding is a pure function of the instance, reflecting that the method
never mutates `self`. -/
theorem claim_c9_get_dataset {α : Type _} (sd : SnapshotDatasets) (name : String)
    (data_dict : List (String × List (String × α))) :
    (dictLookup sd.dataset_map name = none →
      sd.get_dataset name data_dict = Except.error name) ∧
    (∀ pt ds, dictLookup sd.dataset_map name = some (pt, ds) →
      sd.get_dataset name data_dict
        = (dictIndex data_dict pt).bind fun dd => dictIndex dd ds) := by
  constructor
  · intro h
    unfold SnapshotDatasets.get_dataset
    rw [h]
  · intro pt ds h
    unfold SnapshotDatasets.get_dataset
    rw [h]

/-- Witness for C9: on a concrete snapshot state, a missing name yields the
`KeyError` with that name, and a present name yields the nested dict
indexing. -/
theorem claim_c9_witness :
    snapAliased.get_dataset "missing" ([] : List (String × List (String × ℕ)))
        = Except.error "missing" ∧
    snapAliased.get_dataset ("PartType0" ++ "/" ++ "Masses")
        [("PartType0", [("Masses", (42 : ℕ))])]
      = (dictIndex [("PartType0", [("Masses", (42 : ℕ))])] "PartType0").bind
          fun dd => dictIndex dd "Masses" :=
  ⟨(claim_c9_get_dataset snapAliased "missing" []).1 (by decide),
   (claim_c9_get_dataset snapAliased ("PartType0" ++ "/" ++ "Masses")
      [("PartType0", [("Masses", (42 : ℕ))])]).2 "PartType0" "Masses" (by decide)⟩

/-- Counterexample to claim C10 as stated: an alias whose key coincides with
the snapshot-derived key `"PartType0/GroupNr_all"` overwrites it, so after
`setup_aliases` that key maps to the alias target `("PartType1", "Foo")`, not
to `("PartType0", "GroupNr_all")`. -/
theorem claim_c10_counterexample :
    (snapFileX.setup_aliases aliasX).map
        (fun s => dictLookup s.dataset_map "PartType0/GroupNr_all")
      = some (some ("PartType1", "Foo")) ∧
    (("PartType1", "Foo") : String × String) ≠ ("PartType0", "GroupNr_all") :=
  ⟨by decide, by decide⟩

/-- Claim C10 as amended: after a successful `setup_aliases(aliases)`, for
every particle-type group found in the file the keys `P/GroupNr_all`,
`P/GroupNr_bound` and `P/dataset` (for each dataset present) map to
`(P, GroupNr_all)`, `(P, GroupNr_bound)` and `(P, dataset)` respectively,
provided no alias key coincides with that key (later alias writes win, see
the counterexample) and the group names contain no `'/'` (true of HDF5 group
names; a slash could make two distinct groups produce the same key). -/
theorem claim_c10_setup_aliases_amended (sd : SnapshotDatasets)
    (aliases : List (String × String)) (sd' : SnapshotDatasets)
    (hsetup : sd.setup_aliases aliases = some sd')
    (hslash : ∀ e ∈ sd.datasets_in_file, ('/' : Char) ∉ e.1.data)
    (pt : String) (dsets : List String) (hmem : (pt, dsets) ∈ sd.datasets_in_file)
    (ds : String) (hds : ds ∈ dsets ++ ["GroupNr_all", "GroupNr_bound"])
    (halias : ∀ a ∈ aliases, a.1 ≠ pt ++ "/" ++ ds) :
    dictLookup sd'.dataset_map (pt ++ "/" ++ ds) = some (pt, ds) := by
  unfold SnapshotDatasets.setup_aliases at hsetup
  have h := applyAliases_lookup (pt ++ "/" ++ ds) aliases _ sd' hsetup halias
  rw [h]
  exact baseDatasetMap_lookup hslash hmem hds

/-- Witness for the amended C10: with one particle type holding one dataset
and no aliases, the key `PartType0/Masses` maps to
`("PartType0", "Masses")` after `setup_aliases`. -/
theorem claim_c10_witness :
    dictLookup snapAliased.dataset_map ("PartType0" ++ "/" ++ "Masses")
      = some ("PartType0", "Masses") :=
  claim_c10_setup_aliases_amended snapFile [] snapAliased rfl (by decide)
    "PartType0" ["Masses"] (by decide) "Masses" (by decide)
    (fun a ha => absurd ha (List.not_mem_nil a))
